import Mathlib

/-!
Verification of the minitorch tensor/autodiff core (src/minitorch/tensor.py).

Numeric values are modelled as rationals (the Python code uses floats; every
claim checked here involves only exact small arithmetic where IEEE doubles and
rationals agree).

The repository ships only tensor.py.  The modules it imports (autodiff.py,
tensor_ops.py, tensor_data.py, operators.py) are absent, so the strided-buffer
operations, the backend map/zip/reduce primitives and the reverse-mode engine
are modelled from the specification (sections 3, 4.1, 4.2, 4.3); each such
definition is marked "Modelled from the spec".  Everything visible in
tensor.py (the Function catalog, Tensor.expand, Tensor.backward,
central_difference, make_tensor_functions) is translated directly.
-/

abbrev Scalar := ℚ

abbrev Storage := List Scalar

/-- Row-major (canonical) strides for a shape: stride of dimension d is the
product of the dimensions to its right.  Modelled from the spec (section 3:
a buffer is contiguous iff strides match the row-major layout). -/
def stridesFor : List ℕ → List ℕ
  | [] => []
  | _ :: rest => rest.prod :: stridesFor rest

/-- Flat storage offset of a multi-index: sum of idx[d] * strides[d].
Modelled from the spec (section 3). -/
def indexToPosition (idx strides : List ℕ) : ℕ :=
  (List.zipWith (· * ·) idx strides).sum

/-- Multi-index of a flat row-major position (inverse of indexToPosition for
canonical strides). -/
def positionToIndex : ℕ → List ℕ → List ℕ
  | _, [] => []
  | p, _ :: rest => p / rest.prod :: positionToIndex (p % rest.prod) rest

/-- A multi-index is valid for a shape when it has one coordinate per
dimension, each within bounds. -/
def idxValid (shape idx : List ℕ) : Prop :=
  idx.length = shape.length ∧ ∀ q ∈ List.zip idx shape, q.1 < q.2

instance (shape idx : List ℕ) : Decidable (idxValid shape idx) :=
  inferInstanceAs (Decidable (_ ∧ _))

theorem idxValid_nil : idxValid [] [] := by
  constructor <;> simp

theorem idxValid_cons {n : ℕ} {rest : List ℕ} {i : ℕ} {ir : List ℕ} :
    idxValid (n :: rest) (i :: ir) ↔ i < n ∧ idxValid rest ir := by
  unfold idxValid
  simp only [List.length_cons, List.zip_cons_cons, List.mem_cons]
  constructor
  · rintro ⟨hl, hq⟩
    exact ⟨hq _ (Or.inl rfl), by omega, fun q hq' => hq q (Or.inr hq')⟩
  · rintro ⟨hi, hl, hq⟩
    refine ⟨by omega, ?_⟩
    rintro q (rfl | hq')
    · exact hi
    · exact hq q hq'

theorem idxValid_length {shape idx : List ℕ} (h : idxValid shape idx) :
    idx.length = shape.length := h.1

/-- All entries of a row-major enumeration stay below the shape's size. -/
theorem indexToPosition_lt {shape idx : List ℕ} (h : idxValid shape idx) :
    indexToPosition idx (stridesFor shape) < shape.prod := by
  induction shape generalizing idx with
  | nil =>
    have : idx = [] := List.length_eq_zero.mp h.1
    subst this
    simp [indexToPosition, stridesFor]
  | cons n rest ih =>
    match idx with
    | [] => exact absurd h.1 (by simp)
    | i :: ir =>
      obtain ⟨hi, hir⟩ := idxValid_cons.mp h
      have hr := ih hir
      have : indexToPosition (i :: ir) (stridesFor (n :: rest)) =
          i * rest.prod + indexToPosition ir (stridesFor rest) := by
        simp [indexToPosition, stridesFor]
      rw [this, List.prod_cons]
      calc i * rest.prod + indexToPosition ir (stridesFor rest)
          < i * rest.prod + rest.prod := by omega
        _ = (i + 1) * rest.prod := by ring
        _ ≤ n * rest.prod := Nat.mul_le_mul_right _ (by omega)

/-- Converting a valid multi-index to its row-major position and back is the
identity. -/
theorem positionToIndex_indexToPosition {shape idx : List ℕ}
    (h : idxValid shape idx) :
    positionToIndex (indexToPosition idx (stridesFor shape)) shape = idx := by
  induction shape generalizing idx with
  | nil =>
    have : idx = [] := List.length_eq_zero.mp h.1
    subst this
    simp [positionToIndex]
  | cons n rest ih =>
    match idx with
    | [] => exact absurd h.1 (by simp)
    | i :: ir =>
      obtain ⟨hi, hir⟩ := idxValid_cons.mp h
      have hrlt := indexToPosition_lt hir
      have hpos : indexToPosition (i :: ir) (stridesFor (n :: rest)) =
          i * rest.prod + indexToPosition ir (stridesFor rest) := by
        simp [indexToPosition, stridesFor]
      have hR : 0 < rest.prod := by omega
      rw [hpos]
      unfold positionToIndex
      congr 1
      · rw [Nat.mul_comm i rest.prod, Nat.mul_add_div hR,
          Nat.div_eq_of_lt hrlt, Nat.add_zero]
      · rw [Nat.mul_comm i rest.prod, Nat.mul_add_mod,
          Nat.mod_eq_of_lt hrlt]
        exact ih hir

/-- Every row-major position below the size decodes to a valid multi-index. -/
theorem positionToIndex_valid {shape : List ℕ} {p : ℕ} (h : p < shape.prod) :
    idxValid shape (positionToIndex p shape) := by
  induction shape generalizing p with
  | nil => simpa [positionToIndex] using idxValid_nil
  | cons n rest ih =>
    rw [List.prod_cons] at h
    have hR : 0 < rest.prod := by
      rcases Nat.eq_zero_or_pos rest.prod with h0 | h0
      · rw [h0, Nat.mul_zero] at h
        exact absurd h (Nat.not_lt_zero p)
      · exact h0
    unfold positionToIndex
    rw [idxValid_cons]
    exact ⟨Nat.div_lt_iff_lt_mul hR |>.mpr h, ih (Nat.mod_lt _ hR)⟩

/-- Encoding a decoded position is the identity below the size. -/
theorem indexToPosition_positionToIndex {shape : List ℕ} {p : ℕ}
    (h : p < shape.prod) :
    indexToPosition (positionToIndex p shape) (stridesFor shape) = p := by
  induction shape generalizing p with
  | nil =>
    simp only [List.prod_nil, Nat.lt_one_iff] at h
    simp [positionToIndex, indexToPosition, h]
  | cons n rest ih =>
    rw [List.prod_cons] at h
    have hR : 0 < rest.prod := by
      rcases Nat.eq_zero_or_pos rest.prod with h0 | h0
      · rw [h0, Nat.mul_zero] at h
        exact absurd h (Nat.not_lt_zero p)
      · exact h0
    unfold positionToIndex
    have heq : indexToPosition
        (p / rest.prod :: positionToIndex (p % rest.prod) rest)
        (stridesFor (n :: rest)) =
        p / rest.prod * rest.prod +
          indexToPosition (positionToIndex (p % rest.prod) rest)
            (stridesFor rest) := by
      simp [indexToPosition, stridesFor]
    rw [heq, ih (Nat.mod_lt _ hR)]
    exact Nat.div_add_mod' p rest.prod

/-- Strided buffer: flat storage plus shape and strides.  Modelled from the
spec (section 3, StridedBuffer); tensor_data.py is not in the repository. -/
structure TensorData where
  storage : Storage
  shape : List ℕ
  strides : List ℕ
deriving DecidableEq

/-- Element of a buffer at a multi-index (storage offset via strides). -/
def tdGet (t : TensorData) (idx : List ℕ) : Scalar :=
  t.storage.getD (indexToPosition idx t.strides) 0

/-- Contiguity check: strides equal the canonical row-major strides.
Modelled from the spec (section 4.1, is_contiguous). -/
def isContiguous (t : TensorData) : Prop :=
  t.strides = stridesFor t.shape

instance (t : TensorData) : Decidable (isContiguous t) :=
  inferInstanceAs (Decidable (_ = _))

/-- Freshly allocated contiguous buffer whose entry at each valid multi-index
is given by a generator; this is the shape every backend primitive's output
takes (storage cell p holds the value for the row-major index of p). -/
def mkContig (shape : List ℕ) (g : List ℕ → Scalar) : TensorData :=
  { storage := (List.range shape.prod).map fun p => g (positionToIndex p shape)
    shape := shape
    strides := stridesFor shape }

theorem mkContig_shape (shape : List ℕ) (g : List ℕ → Scalar) :
    (mkContig shape g).shape = shape := rfl

theorem mkContig_strides (shape : List ℕ) (g : List ℕ → Scalar) :
    (mkContig shape g).strides = stridesFor shape := rfl

theorem mkContig_storage_length (shape : List ℕ) (g : List ℕ → Scalar) :
    (mkContig shape g).storage.length = shape.prod := by
  simp [mkContig]

theorem tdGet_mkContig {shape idx : List ℕ} (g : List ℕ → Scalar)
    (h : idxValid shape idx) : tdGet (mkContig shape g) idx = g idx := by
  have hlt := indexToPosition_lt h
  unfold tdGet mkContig
  simp only
  rw [List.getD_eq_getElem?_getD, List.getElem?_map, List.getElem?_range hlt]
  simp [positionToIndex_indexToPosition h]

/-- Two generator-built buffers over the same shape agree when the generators
agree on all valid indices. -/
theorem mkContig_congr {shape : List ℕ} {g g' : List ℕ → Scalar}
    (h : ∀ idx, idxValid shape idx → g idx = g' idx) :
    mkContig shape g = mkContig shape g' := by
  unfold mkContig
  congr 1
  exact List.map_congr_left fun p hp =>
    h _ (positionToIndex_valid (List.mem_range.mp hp))

/-- Well-formed user-constructed tensor data: canonical strides, storage of
exactly the shape's size, at least one dimension, all dimensions positive. -/
def tdWF (t : TensorData) : Prop :=
  t.strides = stridesFor t.shape ∧ t.storage.length = t.shape.prod ∧
    t.shape ≠ [] ∧ ∀ d ∈ t.shape, 1 ≤ d

instance (t : TensorData) : Decidable (tdWF t) :=
  inferInstanceAs (Decidable (_ ∧ _))

/-- Zero-filled tensor data of a shape (the zeros constructor in tensor.py
builds storage [0] * prod(shape) with canonical strides). -/
def zerosTD (shape : List ℕ) : TensorData :=
  { storage := List.replicate shape.prod 0
    shape := shape
    strides := stridesFor shape }

/-- Right-aligned broadcast unification on reversed shapes.  Modelled from
the spec (section 4.1, broadcast_shape_unify). -/
def shapeBroadcastR : List ℕ → List ℕ → Option (List ℕ)
  | [], ys => some ys
  | x :: xs, [] => some (x :: xs)
  | x :: xs, y :: ys =>
    match shapeBroadcastR xs ys with
    | none => none
    | some rest =>
      if x = y ∨ x = 1 ∨ y = 1 then some (max x y :: rest) else none

/-- Broadcast unification of two shapes: right-align, each aligned pair must
be equal or contain a 1, result is the pointwise max.  Modelled from the spec
(section 4.1). -/
def shapeBroadcast (a b : List ℕ) : Option (List ℕ) :=
  (shapeBroadcastR a.reverse b.reverse).map List.reverse

theorem shapeBroadcastR_self (s : List ℕ) : shapeBroadcastR s s = some s := by
  induction s with
  | nil => rfl
  | cons x xs ih => simp [shapeBroadcastR, ih]

theorem shapeBroadcast_self (s : List ℕ) : shapeBroadcast s s = some s := by
  simp [shapeBroadcast, shapeBroadcastR_self]

theorem shapeBroadcastR_nil_right (s : List ℕ) :
    shapeBroadcastR s [] = some s := by
  cases s <;> rfl

theorem shapeBroadcast_one {s : List ℕ} (hne : s ≠ [])
    (hpos : ∀ d ∈ s, 1 ≤ d) : shapeBroadcast s [1] = some s := by
  unfold shapeBroadcast
  have hrev : s.reverse ≠ [] := by simpa using hne
  match hr : s.reverse with
  | [] => exact absurd hr hrev
  | x :: xs =>
    have hx : 1 ≤ x := by
      have : x ∈ s.reverse := by rw [hr]; exact List.mem_cons_self _ _
      exact hpos x (List.mem_reverse.mp this)
    show ((shapeBroadcastR (x :: xs) [1]).map List.reverse) = some s
    have h1 : shapeBroadcastR (x :: xs) [1] = some (max x 1 :: xs) := by
      unfold shapeBroadcastR
      rw [shapeBroadcastR_nil_right]
      simp
    rw [h1]
    have : max x 1 = x := Nat.max_eq_left hx
    rw [this]
    simp only [Option.map_some']
    rw [← hr, List.reverse_reverse]

/-- Map an index in a broadcast (unified) shape down to an operand's shape:
keep the trailing coordinates and clamp any size-1 dimension to 0.  Modelled
from the spec (section 4.1, broadcast_index). -/
def broadcastIndex (bigIdx smallShape : List ℕ) : List ℕ :=
  List.zipWith (fun i d => if d = 1 then 0 else i)
    (bigIdx.drop (bigIdx.length - smallShape.length)) smallShape

theorem broadcastIndex_self {s idx : List ℕ} (h : idxValid s idx) :
    broadcastIndex idx s = idx := by
  unfold broadcastIndex
  rw [idxValid_length h, Nat.sub_self, List.drop_zero]
  induction s generalizing idx with
  | nil =>
    have : idx = [] := List.length_eq_zero.mp h.1
    subst this
    rfl
  | cons n rest ih =>
    match idx with
    | [] => exact absurd h.1 (by simp)
    | i :: ir =>
      obtain ⟨hi, hir⟩ := idxValid_cons.mp h
      simp only [List.zipWith_cons_cons]
      rw [ih hir]
      by_cases hn : n = 1
      · subst hn
        have : i = 0 := by omega
        simp [this]
      · simp [hn]

theorem broadcastIndex_to_one {idx : List ℕ} (h : idx ≠ []) :
    broadcastIndex idx [1] = [0] := by
  unfold broadcastIndex
  have hone : ([1] : List ℕ).length = 1 := rfl
  rw [hone]
  have hlen : (idx.drop (idx.length - 1)).length = 1 := by
    rw [List.length_drop]
    have : 1 ≤ idx.length := by
      cases idx with
      | nil => exact absurd rfl h
      | cons a l => simp
    omega
  obtain ⟨a, ha⟩ := List.length_eq_one.mp hlen
  rw [ha]
  rfl

/-- Failure taxonomy of the library (spec section 7); assertionFail stands
for the AssertionError raised by a failed Python assert. -/
inductive TErr where
  | shapeMismatch
  | contiguityError
  | permutationError
  | assertionFail
deriving DecidableEq

/-- Backend map with an explicit output shape: every output cell reads the
input through broadcast_index.  Modelled from the spec (section 4.3, map);
tensor_ops.py is not in the repository. -/
def tdMapOut (f : Scalar → Scalar) (a : TensorData) (oshape : List ℕ) :
    TensorData :=
  mkContig oshape fun idx => f (tdGet a (broadcastIndex idx a.shape))

/-- Backend map without an out argument: fresh result of the input's shape.
Modelled from the spec (section 4.3, map). -/
def tdMapSeq (f : Scalar → Scalar) (a : TensorData) : TensorData :=
  tdMapOut f a a.shape

/-- Backend zip: unify the operand shapes by broadcasting and apply f
elementwise over the unified index space.  Modelled from the spec
(section 4.3, zip). -/
def tdZip (f : Scalar → Scalar → Scalar) (a b : TensorData) :
    Except TErr TensorData :=
  match shapeBroadcast a.shape b.shape with
  | none => .error .shapeMismatch
  | some cshape =>
    .ok (mkContig cshape fun idx =>
      f (tdGet a (broadcastIndex idx a.shape))
        (tdGet b (broadcastIndex idx b.shape)))

/-- Output shape of a reduction: the listed dimensions collapse to size 1. -/
def reduceShape (shape dims : List ℕ) : List ℕ :=
  dims.foldl (fun s d => s.set d 1) shape

/-- Sizes of the reduced dimensions, in the order they are listed. -/
def subShapeOf (shape dims : List ℕ) : List ℕ :=
  dims.map fun d => shape.getD d 1

/-- Write the coordinates of a reduced-subspace index into an output index at
the reduced dimensions. -/
def mergeIdx : List ℕ → List ℕ → List ℕ → List ℕ
  | o, [], _ => o
  | o, _ :: _, [] => o
  | o, d :: ds, j :: js => mergeIdx (o.set d j) ds js

/-- All valid multi-indices of a shape in row-major order. -/
def allIndices : List ℕ → List (List ℕ)
  | [] => [[]]
  | n :: rest => (List.range n).flatMap fun i => (allIndices rest).map (i :: ·)

/-- Backend reduce: collapse the listed dimensions to size 1, folding f
left-to-right (row-major) over each output cell's reduced subspace, starting
from the given initial value per cell.  Modelled from the spec
(section 4.3, reduce). -/
def tdReduce (f : Scalar → Scalar → Scalar) (start : Scalar) (a : TensorData)
    (dims : List ℕ) : TensorData :=
  mkContig (reduceShape a.shape dims) fun oidx =>
    (allIndices (subShapeOf a.shape dims)).foldl
      (fun acc sub => f acc (tdGet a (mergeIdx oidx dims sub))) start

/-- Backend reduce with a caller-provided output (used by Tensor.expand as
add_reduce(buf, out=buf2)): each output cell folds f over every input entry
whose index broadcasts down to it.  Modelled from the spec (section 4.3). -/
def tdReduceInto (f : Scalar → Scalar → Scalar) (start : Scalar)
    (a : TensorData) (oshape : List ℕ) : TensorData :=
  mkContig oshape fun oidx =>
    ((allIndices a.shape).filter
        (fun idx => broadcastIndex idx oshape = oidx)).foldl
      (fun acc idx => f acc (tdGet a idx)) start

/-- Mathematical sum of all entries of a buffer (one per valid multi-index). -/
def totalSum (t : TensorData) : Scalar :=
  ((allIndices t.shape).map (tdGet t)).sum

/-- View.forward from tensor.py: asserts the input is contiguous (read: fails
with the contiguity error of the spec's taxonomy), then reinterprets the same
storage under the new shape with canonical strides; the TensorData
constructor requires the storage to have exactly the new shape's size
(modelled from the spec, section 4.1, to_view). -/
def tViewTD (a : TensorData) (shape : List ℕ) : Except TErr TensorData :=
  if isContiguous a then
    if a.storage.length = shape.prod then
      .ok { storage := a.storage, shape := shape, strides := stridesFor shape }
    else .error .shapeMismatch
  else .error .contiguityError

/-- TensorData.permute: same storage, shape and strides reordered per order;
fails unless order is a permutation of range(dims).  Modelled from the spec
(section 4.1, permute); used by Permute.forward/backward in tensor.py. -/
def tdPermuteE (a : TensorData) (order : List ℕ) : Except TErr TensorData :=
  if order.Perm (List.range a.shape.length) then
    .ok { storage := a.storage
          shape := order.map fun d => a.shape.getD d 0
          strides := order.map fun d => a.strides.getD d 0 }
  else .error .permutationError

/-- Inverse permutation as computed by Permute.backward in tensor.py:
argsort the saved order by sorting its enumeration on the value. -/
def argsortIdx (order : List ℕ) : List ℕ :=
  (order.enum.mergeSort fun a b => Nat.ble a.2 b.2).map Prod.fst

/-- Backend operator bundle handed to make_tensor_functions: the only numeric
entry points a differentiable operation may use (spec section 4.3).  The
fields mirror the map/zip/reduce produced from a TensorOps class, including
the out-parameter variants used by Tensor.expand. -/
structure Backend where
  map : (Scalar → Scalar) → TensorData → TensorData
  mapOut : (Scalar → Scalar) → TensorData → List ℕ → TensorData
  zip : (Scalar → Scalar → Scalar) → TensorData → TensorData →
    Except TErr TensorData
  reduce : (Scalar → Scalar → Scalar) → Scalar → TensorData → List ℕ →
    TensorData
  reduceInto : (Scalar → Scalar → Scalar) → Scalar → TensorData → List ℕ →
    TensorData

/-- Sequential (scalar-loop) backend: the TensorOps reference implementation.
Modelled from the spec (section 4.3); tensor_ops.py is not in the repository. -/
def seqOps : Backend :=
  { map := tdMapSeq
    mapOut := tdMapOut
    zip := tdZip
    reduce := tdReduce
    reduceInto := tdReduceInto }

/-- A backend honors the TensorOps contract when each of its primitives
computes exactly what the sequential reference computes (spec sections 4.3
and 6: switching backend must not change any numeric result). -/
def honorsContract (be : Backend) : Prop :=
  be.map = tdMapSeq ∧ be.mapOut = tdMapOut ∧ be.zip = tdZip ∧
    be.reduce = tdReduce ∧ be.reduceInto = tdReduceInto

/-- Tensor.expand from tensor.py, used by the engine to fit a backward
gradient to an input's shape: identity when shapes already agree, else
broadcast-copy the gradient up to the unified shape and, if needed,
add-reduce it back down to the input's shape. -/
def tExpandB (be : Backend) (selfShape : List ℕ) (other : TensorData) :
    Except TErr TensorData :=
  if selfShape = other.shape then .ok other
  else
    match shapeBroadcast selfShape other.shape with
    | none => .error .shapeMismatch
    | some shape =>
      let buf := be.mapOut id other shape
      if selfShape = shape then .ok buf
      else .ok (be.reduceInto (· + ·) 0 buf selfShape)

/-- Computation graph over leaf tensors, one node per invocation of a
Function from make_tensor_functions in tensor.py.  Leaves are identified by
a number into an environment; the same leaf used twice is the diamond
dependency of the spec.  Only the operations implemented in tensor.py
appear (Mul's body is spec-modelled: its forward/backward in tensor.py are
NotImplementedError placeholders; the spec gives zip(multiply) with the
product rule). -/
inductive TExpr where
  | leaf (i : ℕ)
  | neg (a : TExpr)
  | add (a b : TExpr)
  | mul (a b : TExpr)
  | sum (a : TExpr) (dim : Option ℕ)
  | permute (a : TExpr) (order : List ℕ)
  | view (a : TExpr) (shape : List ℕ)
  | copy (a : TExpr)

/-- Forward evaluation of a graph, parametric in the backend: each case is
the corresponding Function.forward from tensor.py (Neg neg_map, Add add_zip,
Mul mul_zip, Sum add_reduce over the dim or over all dims followed by
view(1), Permute a._tensor.permute(order), View the contiguity-checked
reinterpretation, Copy id_map). -/
def forwardB (be : Backend) (env : ℕ → TensorData) : TExpr →
    Except TErr TensorData
  | .leaf i => .ok (env i)
  | .neg a => do
    let ta ← forwardB be env a
    .ok (be.map (fun x => -x) ta)
  | .add a b => do
    let ta ← forwardB be env a
    let tb ← forwardB be env b
    be.zip (· + ·) ta tb
  | .mul a b => do
    let ta ← forwardB be env a
    let tb ← forwardB be env b
    be.zip (· * ·) ta tb
  | .sum a dim => do
    let ta ← forwardB be env a
    match dim with
    | some d => .ok (be.reduce (· + ·) 0 ta [d])
    | none =>
      tViewTD (be.reduce (· + ·) 0 ta (List.range ta.shape.length)) [1]
  | .permute a order => do
    let ta ← forwardB be env a
    tdPermuteE ta order
  | .view a shape => do
    let ta ← forwardB be env a
    tViewTD ta shape
  | .copy a => do
    let ta ← forwardB be env a
    .ok (be.map id ta)

/-- Gradient slots of the leaf tensors: allocated lazily on first backward
accumulation (spec section 3, Variable). -/
def GState := ℕ → Option TensorData

/-- Overwrite one leaf's gradient slot. -/
def setGrad (σ : GState) (i : ℕ) (g : TensorData) : GState :=
  fun j => if j = i then some g else σ j

/-- Accumulate a gradient contribution into a leaf's slot via addition
(spec section 4.2: each Tensor's gradient accumulates via addition across
all paths that reach it). -/
def accumGradB (be : Backend) (σ : GState) (i : ℕ) (g : TensorData) :
    Except TErr GState :=
  match σ i with
  | none => .ok (setGrad σ i g)
  | some d => do
    let s ← be.zip (· + ·) d g
    .ok (setGrad σ i s)

/-- Reverse-mode pass.  Modelled from the spec (section 4.2, backward):
autodiff.py is not in the repository.  The graph value is a tree whose only
sharing is through leaf identifiers, so recursing into subterms processes
every node exactly once in reverse topological order; a leaf reached along
several paths (the diamond) receives each contribution through accumGradB.
Per node the gradient handed to each input is the pair produced by the
corresponding Function.backward in tensor.py, fitted to the input's shape
with Tensor.expand: Neg re-negates, Add passes the gradient to both inputs,
Mul multiplies by the other saved operand (spec-modelled, see TExpr), Sum
and Copy pass the gradient through (expand re-broadcasts it over reduced
dimensions), Permute applies the inverse permutation obtained by argsorting
the saved order, View re-wraps the gradient's storage in the saved original
shape. -/
def backpropB (be : Backend) (env : ℕ → TensorData) :
    TExpr → TensorData → GState → Except TErr GState
  | .leaf i, g, σ => accumGradB be σ i g
  | .neg a, g, σ => do
    let ta ← forwardB be env a
    let ga ← tExpandB be ta.shape (be.map (fun x => -x) g)
    backpropB be env a ga σ
  | .add a b, g, σ => do
    let ta ← forwardB be env a
    let tb ← forwardB be env b
    let ga ← tExpandB be ta.shape g
    let σ1 ← backpropB be env a ga σ
    let gb ← tExpandB be tb.shape g
    backpropB be env b gb σ1
  | .mul a b, g, σ => do
    let ta ← forwardB be env a
    let tb ← forwardB be env b
    let gra ← be.zip (· * ·) g tb
    let ga ← tExpandB be ta.shape gra
    let σ1 ← backpropB be env a ga σ
    let grb ← be.zip (· * ·) g ta
    let gb ← tExpandB be tb.shape grb
    backpropB be env b gb σ1
  | .sum a _, g, σ => do
    let ta ← forwardB be env a
    let ga ← tExpandB be ta.shape g
    backpropB be env a ga σ
  | .permute a order, g, σ => do
    let ta ← forwardB be env a
    let gp ← tdPermuteE g (argsortIdx order)
    let ga ← tExpandB be ta.shape gp
    backpropB be env a ga σ
  | .view a _, g, σ => do
    let ta ← forwardB be env a
    let gv : TensorData :=
      { storage := g.storage, shape := ta.shape, strides := stridesFor ta.shape }
    let ga ← tExpandB be ta.shape gv
    backpropB be env a ga σ
  | .copy a, g, σ => do
    let ta ← forwardB be env a
    let ga ← tExpandB be ta.shape g
    backpropB be env a ga σ

/-- The gradient seed tensor([1.0]) built by Tensor.backward. -/
def oneTD : TensorData :=
  { storage := [1], shape := [1], strides := [1] }

/-- Tensor.backward from tensor.py: with no grad_output the tensor must have
shape (1,) (a failed assert raises, touching no gradient slot) and the pass
is seeded with tensor([1.0]); with a grad_output the seed must match the
root's shape (spec section 4.2). -/
def tensorBackwardB (be : Backend) (env : ℕ → TensorData) (e : TExpr)
    (gradOutput : Option TensorData) (σ : GState) : Except TErr GState := do
  let t ← forwardB be env e
  match gradOutput with
  | none =>
    if t.shape = [1] then backpropB be env e oneTD σ
    else .error .assertionFail
  | some g =>
    if g.shape = t.shape then backpropB be env e g σ
    else .error .shapeMismatch

/-- Forward evaluation on the sequential backend (the default
TensorFunctions = make_tensor_functions(TensorOps) of tensor.py). -/
def forwardSeq : (ℕ → TensorData) → TExpr → Except TErr TensorData :=
  forwardB seqOps

/-- Backward pass on the sequential backend. -/
def backpropSeq : (ℕ → TensorData) → TExpr → TensorData → GState →
    Except TErr GState :=
  backpropB seqOps

/-- Tensor.backward on the sequential backend. -/
def tensorBackwardSeq : (ℕ → TensorData) → TExpr → Option TensorData →
    GState → Except TErr GState :=
  tensorBackwardB seqOps

/-- Tensor.expand on the sequential backend. -/
def tExpandSeq : List ℕ → TensorData → Except TErr TensorData :=
  tExpandB seqOps

theorem tdZip_same_shape (f : Scalar → Scalar → Scalar) {a b : TensorData}
    (h : a.shape = b.shape) :
    tdZip f a b = .ok (mkContig a.shape fun idx =>
      f (tdGet a (broadcastIndex idx a.shape))
        (tdGet b (broadcastIndex idx b.shape))) := by
  unfold tdZip
  rw [h, shapeBroadcast_self]

/-- Zipping two same-shaped buffers succeeds and is pointwise application on
every valid index. -/
theorem tdZip_same (f : Scalar → Scalar → Scalar) {a b : TensorData}
    (h : a.shape = b.shape) :
    ∃ z, tdZip f a b = .ok z ∧ z.shape = a.shape ∧
      z.strides = stridesFor a.shape ∧ z.storage.length = a.shape.prod ∧
      ∀ idx, idxValid a.shape idx →
        tdGet z idx = f (tdGet a idx) (tdGet b idx) := by
  refine ⟨_, tdZip_same_shape f h, by rw [h]; rfl, by rw [h]; rfl,
    by rw [h]; exact mkContig_storage_length _ _, ?_⟩
  intro idx hidx
  have hidxb : idxValid b.shape idx := h ▸ hidx
  rw [tdGet_mkContig _ (h ▸ hidx), broadcastIndex_self hidx,
    broadcastIndex_self hidxb]

theorem mem_allIndices {shape idx : List ℕ} :
    idx ∈ allIndices shape ↔ idxValid shape idx := by
  induction shape generalizing idx with
  | nil =>
    simp only [allIndices, List.mem_singleton]
    constructor
    · rintro rfl
      exact idxValid_nil
    · intro h
      exact List.length_eq_zero.mp h.1
  | cons n rest ih =>
    simp only [allIndices, List.mem_flatMap, List.mem_map, List.mem_range]
    cases idx with
    | nil =>
      constructor
      · rintro ⟨i, _, t, _, ht⟩
        exact absurd ht (by simp)
      · intro h
        exact absurd h.1 (by simp)
    | cons i ir =>
      rw [idxValid_cons, ← ih]
      constructor
      · rintro ⟨i', hi', t, ht, heq⟩
        injection heq with h1 h2
        subst h1
        subst h2
        exact ⟨hi', ht⟩
      · rintro ⟨hi, hir⟩
        exact ⟨i, hi, ir, hir, rfl⟩

theorem foldl_add_eq {α : Type} (g : α → Scalar) (l : List α) (b : Scalar) :
    l.foldl (fun acc x => acc + g x) b = b + (l.map g).sum := by
  induction l generalizing b with
  | nil => simp
  | cons x xs ih =>
    simp only [List.foldl_cons, List.map_cons, List.sum_cons, ih]
    ring

theorem reduceShape_length (dims : List ℕ) (shape : List ℕ) :
    (reduceShape shape dims).length = shape.length := by
  unfold reduceShape
  induction dims generalizing shape with
  | nil => rfl
  | cons d ds ih =>
    rw [List.foldl_cons, ih, List.length_set]

theorem reduceShape_getElem? (dims : List ℕ) (shape : List ℕ) (j : ℕ) :
    (reduceShape shape dims)[j]? =
      if j ∈ dims ∧ j < shape.length then some 1 else shape[j]? := by
  unfold reduceShape
  induction dims generalizing shape with
  | nil => simp
  | cons d ds ih =>
    rw [List.foldl_cons, ih (shape.set d 1)]
    rw [List.length_set, List.getElem?_set]
    by_cases hdj : d = j
    · subst hdj
      by_cases hd : d < shape.length
      · by_cases hds : d ∈ ds <;> simp [hds, hd, List.mem_cons]
      · have hnone : shape[d]? = none :=
          List.getElem?_eq_none (Nat.le_of_not_lt hd)
        by_cases hds : d ∈ ds <;> simp [hds, hd, hnone, List.mem_cons]
    · by_cases hds : j ∈ ds <;> by_cases hj : j < shape.length <;>
        simp [hds, hdj, hj, Ne.symm hdj, List.mem_cons]

theorem reduceShape_range_prod (shape : List ℕ) :
    (reduceShape shape (List.range shape.length)).prod = 1 := by
  apply List.prod_eq_one
  intro x hx
  obtain ⟨j, hj⟩ := List.mem_iff_getElem?.mp hx
  rw [reduceShape_getElem?] at hj
  by_cases hjl : j < shape.length
  · simp only [List.mem_range, hjl, and_self, if_pos, true_and] at hj
    exact (Option.some_inj.mp hj).symm
  · rw [if_neg (by simp [hjl]), List.getElem?_eq_none (by omega)] at hj
    exact absurd hj (by simp)

theorem subShapeOf_range (shape : List ℕ) :
    subShapeOf shape (List.range shape.length) = shape := by
  apply List.ext_getElem?
  intro i
  unfold subShapeOf
  rw [List.getElem?_map]
  by_cases hi : i < shape.length
  · rw [List.getElem?_range hi, Option.map_some',
      List.getD_eq_getElem?_getD, List.getElem?_eq_getElem hi]
    simp
  · have h1 : (List.range shape.length)[i]? = none :=
      List.getElem?_eq_none (by simpa using Nat.le_of_not_lt hi)
    have h2 : shape[i]? = none := List.getElem?_eq_none (Nat.le_of_not_lt hi)
    rw [h1, h2, Option.map_none']

theorem positionToIndex_zero (shape : List ℕ) :
    positionToIndex 0 shape = shape.map fun _ => 0 := by
  induction shape with
  | nil => rfl
  | cons n rest ih =>
    unfold positionToIndex
    rw [Nat.zero_div, Nat.zero_mod, ih, List.map_cons]

theorem positionToIndex_length (p : ℕ) (shape : List ℕ) :
    (positionToIndex p shape).length = shape.length := by
  induction shape generalizing p with
  | nil => rfl
  | cons n rest ih =>
    unfold positionToIndex
    rw [List.length_cons, List.length_cons, ih]

theorem mergeIdx_range' (sub : List ℕ) :
    ∀ (o : List ℕ) (i : ℕ), o.length = i + sub.length →
      mergeIdx o (List.range' i sub.length) sub = o.take i ++ sub := by
  induction sub with
  | nil =>
    intro o i h
    rw [List.length_nil, Nat.add_zero] at h
    rw [List.length_nil, List.range'_zero, List.append_nil]
    show o = o.take i
    rw [← h, List.take_length]
  | cons j js ih =>
    intro o i h
    rw [List.length_cons] at h
    rw [List.length_cons, List.range'_succ]
    show mergeIdx (o.set i j) (List.range' (i + 1) js.length) js =
      o.take i ++ j :: js
    rw [ih (o.set i j) (i + 1) (by rw [List.length_set]; omega)]
    have hi : i < o.length := by omega
    have htake : (o.set i j).take (i + 1) = o.take i ++ [j] := by
      rw [List.take_succ, List.set_take,
        List.set_eq_of_length_le (by rw [List.length_take]; omega)]
      congr 1
      rw [List.getElem?_set]
      simp [hi]
    rw [htake, List.append_assoc]
    rfl

theorem mergeIdx_range {sub o : List ℕ} (h : o.length = sub.length) :
    mergeIdx o (List.range sub.length) sub = sub := by
  rw [List.range_eq_range', mergeIdx_range' sub o 0 (by omega),
    List.take_zero, List.nil_append]

/-- A multi-index valid for shape (1,) is exactly [0]. -/
theorem idxValid_one {idx : List ℕ} (h : idxValid [1] idx) : idx = [0] := by
  match idx with
  | [] => exact absurd h.1 (by simp)
  | i :: ir =>
    obtain ⟨hi, hir⟩ := idxValid_cons.mp h
    have : ir = [] := List.length_eq_zero.mp hir.1
    subst this
    have : i = 0 := by omega
    subst this
    rfl

/-- Full reduction of all dimensions followed by view(1), as in Sum.forward
with dim None: succeeds, yields shape (1,), and the single entry is the sum
of all entries of the input. -/
theorem tdSumNone_value (a : TensorData) :
    ∃ s, tViewTD (tdReduce (· + ·) 0 a (List.range a.shape.length)) [1] =
        .ok s ∧ s.shape = [1] ∧ s.strides = [1] ∧ tdGet s [0] = totalSum a := by
  have hcontig : isContiguous
      (tdReduce (· + ·) 0 a (List.range a.shape.length)) := rfl
  have hredlen : (tdReduce (· + ·) 0 a (List.range a.shape.length)).storage.length
      = ([1] : List ℕ).prod := by
    show (mkContig _ _).storage.length = _
    rw [mkContig_storage_length, reduceShape_range_prod]
    rfl
  refine ⟨_, by unfold tViewTD; rw [if_pos hcontig, if_pos hredlen], rfl, rfl, ?_⟩
  show (tdReduce (· + ·) 0 a (List.range a.shape.length)).storage.getD
      (indexToPosition [0] [1]) 0 = totalSum a
  have hpos0 : indexToPosition [0] [1] = 0 := rfl
  rw [hpos0]
  show ((List.range (reduceShape a.shape (List.range a.shape.length)).prod).map
      _).getD 0 0 = totalSum a
  rw [reduceShape_range_prod, show List.range 1 = [0] from rfl,
    List.map_cons, List.map_nil, List.getD_cons_zero]
  show (allIndices (subShapeOf a.shape (List.range a.shape.length))).foldl
      (fun acc sub => acc + tdGet a
        (mergeIdx (positionToIndex 0
          (reduceShape a.shape (List.range a.shape.length)))
          (List.range a.shape.length) sub)) 0 = totalSum a
  rw [subShapeOf_range, foldl_add_eq, zero_add]
  unfold totalSum
  congr 1
  apply List.map_congr_left
  intro sub hsub
  have hv := mem_allIndices.mp hsub
  have hslen : sub.length = a.shape.length := idxValid_length hv
  rw [← hslen]
  have holen : (positionToIndex 0
      (reduceShape a.shape (List.range sub.length))).length = sub.length := by
    rw [positionToIndex_length, reduceShape_length]
    exact hslen.symm
  rw [mergeIdx_range holen]

/-- Tensor.expand applied to a rank-1 singleton gradient (the shape-(1,) seed
or a full-reduction Sum gradient) broadcast-copies its single entry to every
position of the target shape. -/
theorem tExpandSeq_ofOne {S : List ℕ} (hne : S ≠ []) (hpos : ∀ d ∈ S, 1 ≤ d)
    {g : TensorData} (hg : g.shape = [1]) :
    ∃ e, tExpandB seqOps S g = .ok e ∧ e.shape = S ∧
      ∀ idx, idxValid S idx → tdGet e idx = tdGet g [0] := by
  unfold tExpandB
  by_cases hS : S = [1]
  · rw [if_pos (by rw [hS, hg])]
    refine ⟨g, rfl, by rw [hg, hS], ?_⟩
    intro idx hidx
    rw [hS] at hidx
    rw [idxValid_one hidx]
  · rw [if_neg (by rw [hg]; exact hS), hg, shapeBroadcast_one hne hpos]
    refine ⟨tdMapOut id g S, ?_, rfl, ?_⟩
    · show (if S = S then Except.ok (tdMapOut id g S)
        else Except.ok (tdReduceInto (· + ·) 0 (tdMapOut id g S) S)) =
        Except.ok (tdMapOut id g S)
      rw [if_pos rfl]
    · intro idx hidx
      have hidxne : idx ≠ [] := by
        intro h0
        apply hne
        have hlen := idxValid_length hidx
        rw [h0] at hlen
        exact List.length_eq_zero.mp hlen.symm
      unfold tdMapOut
      rw [tdGet_mkContig _ hidx, hg, broadcastIndex_to_one hidxne]
      rfl

theorem setGrad_self (σ : GState) (i : ℕ) (g : TensorData) :
    setGrad σ i g i = some g := by
  simp [setGrad]

theorem setGrad_other {σ : GState} {i j : ℕ} (h : j ≠ i) (g : TensorData) :
    setGrad σ i g j = σ j := by
  simp [setGrad, h]

theorem tdGet_oneTD : tdGet oneTD [0] = 1 := rfl

/-- C1: for every tensor x requiring grad with y = x + x, running
y.sum().backward() accumulates gradient 2.0 at every position of x: the two
uses of x each contribute 1.0 and the contributions are added into the slot,
not overwritten. -/
theorem C1_additive_accumulation (env : ℕ → TensorData) (x : ℕ)
    (h : tdWF (env x)) :
    ∃ σ g, tensorBackwardSeq env (.sum (.add (.leaf x) (.leaf x)) none) none
        (fun _ => none) = .ok σ ∧
      σ x = some g ∧ g.shape = (env x).shape ∧
      ∀ idx, idxValid (env x).shape idx → tdGet g idx = 2 := by
  obtain ⟨hstr, hlen, hne, hpos⟩ := h
  obtain ⟨y, hy, hyshape, hystrides, hylen, hyget⟩ :=
    tdZip_same (· + ·) (rfl : (env x).shape = (env x).shape)
  have hfwd_add : forwardB seqOps env (.add (.leaf x) (.leaf x)) = .ok y := hy
  obtain ⟨s, hs, hsshape, hsstrides, hstotal⟩ := tdSumNone_value y
  have hfwd_sum : forwardB seqOps env
      (.sum (.add (.leaf x) (.leaf x)) none) = .ok s := by
    show (forwardB seqOps env (.add (.leaf x) (.leaf x)) >>= fun ta =>
      tViewTD (tdReduce (· + ·) 0 ta (List.range ta.shape.length)) [1]) = .ok s
    rw [hfwd_add]
    exact hs
  have hyne : y.shape ≠ [] := by rw [hyshape]; exact hne
  have hypos : ∀ d ∈ y.shape, 1 ≤ d := by rw [hyshape]; exact hpos
  obtain ⟨e1, he1, he1shape, he1get⟩ :=
    tExpandSeq_ofOne hyne hypos (rfl : oneTD.shape = [1])
  have hexp_same : tExpandB seqOps (env x).shape e1 = .ok e1 := by
    unfold tExpandB
    rw [if_pos (he1shape.trans hyshape).symm]
  obtain ⟨g2, hg2, hg2shape, hg2strides, hg2len, hg2get⟩ :=
    tdZip_same (· + ·) (rfl : e1.shape = e1.shape)
  have hbp2 : backpropB seqOps env (.add (.leaf x) (.leaf x)) e1
      (fun _ => none) =
      .ok (setGrad (setGrad (fun _ => none) x e1) x g2) := by
    show (forwardB seqOps env (.leaf x) >>= fun ta =>
      forwardB seqOps env (.leaf x) >>= fun tb =>
      tExpandB seqOps ta.shape e1 >>= fun ga =>
      backpropB seqOps env (.leaf x) ga (fun _ => none) >>= fun σ1 =>
      tExpandB seqOps tb.shape e1 >>= fun gb =>
      backpropB seqOps env (.leaf x) gb σ1) = _
    show (tExpandB seqOps (env x).shape e1 >>= fun ga =>
      backpropB seqOps env (.leaf x) ga (fun _ => none) >>= fun σ1 =>
      tExpandB seqOps (env x).shape e1 >>= fun gb =>
      backpropB seqOps env (.leaf x) gb σ1) = _
    rw [hexp_same]
    show (backpropB seqOps env (.leaf x) e1 (fun _ => none) >>= fun σ1 =>
      backpropB seqOps env (.leaf x) e1 σ1) = _
    show backpropB seqOps env (.leaf x) e1 (setGrad (fun _ => none) x e1) = _
    show accumGradB seqOps (setGrad (fun _ => none) x e1) x e1 = _
    unfold accumGradB
    rw [setGrad_self]
    show (tdZip (· + ·) e1 e1 >>= fun s2 =>
      .ok (setGrad (setGrad (fun _ => none) x e1) x s2)) = _
    rw [hg2]
    rfl
  have htb : tensorBackwardSeq env (.sum (.add (.leaf x) (.leaf x)) none) none
      (fun _ => none) =
      .ok (setGrad (setGrad (fun _ => none) x e1) x g2) := by
    show tensorBackwardB seqOps env (.sum (.add (.leaf x) (.leaf x)) none)
      none (fun _ => none) = _
    unfold tensorBackwardB
    rw [hfwd_sum]
    show (if s.shape = [1] then
        backpropB seqOps env (.sum (.add (.leaf x) (.leaf x)) none) oneTD
          (fun _ => none)
      else .error .assertionFail) = _
    rw [if_pos hsshape]
    show (forwardB seqOps env (.add (.leaf x) (.leaf x)) >>= fun ta =>
      tExpandB seqOps ta.shape oneTD >>= fun ga =>
      backpropB seqOps env (.add (.leaf x) (.leaf x)) ga (fun _ => none)) = _
    rw [hfwd_add]
    show (tExpandB seqOps y.shape oneTD >>= fun ga =>
      backpropB seqOps env (.add (.leaf x) (.leaf x)) ga (fun _ => none)) = _
    rw [he1]
    exact hbp2
  refine ⟨_, g2, htb, setGrad_self _ _ _, hg2shape.trans (he1shape.trans hyshape), ?_⟩
  intro idx hidx
  have hidx1 : idxValid e1.shape idx := by
    rw [he1shape.trans hyshape]
    exact hidx
  have hidxy : idxValid y.shape idx := by
    rw [hyshape]
    exact hidx
  rw [hg2get idx hidx1, he1get idx hidxy, tdGet_oneTD]
  norm_num

/-- Concrete well-formed tensor of shape (2,) used by witnesses. -/
def witT2 : TensorData := { storage := [5, 7], shape := [2], strides := [1] }

/-- Witness for C1 at the concrete tensor [5.0, 7.0]. -/
theorem C1_additive_accumulation_witness :
    tdWF witT2 ∧ ∃ σ g,
      tensorBackwardSeq (fun _ => witT2)
          (.sum (.add (.leaf 0) (.leaf 0)) none) none (fun _ => none) =
        .ok σ ∧ σ 0 = some g ∧ g.shape = witT2.shape ∧
      ∀ idx, idxValid witT2.shape idx → tdGet g idx = 2 :=
  ⟨by decide, C1_additive_accumulation (fun _ => witT2) 0 (by decide)⟩

/-- C2: for a tensor x of shape (n,) with every entry equal to v, running
x.sum().backward() leaves gradient 1.0 at every position of x: Sum's
backward hands the (1,)-shaped seed through and Tensor.expand broadcasts it
uniformly over the reduced entries. -/
theorem C2_sum_backward_uniform (env : ℕ → TensorData) (x : ℕ) (n : ℕ)
    (v : Scalar) (hn : 1 ≤ n)
    (hx : env x = { storage := List.replicate n v, shape := [n],
                    strides := [1] }) :
    ∃ σ g, tensorBackwardSeq env (.sum (.leaf x) none) none (fun _ => none) =
        .ok σ ∧
      σ x = some g ∧ g.shape = [n] ∧
      ∀ i, i < n → tdGet g [i] = 1 := by
  have hshape : (env x).shape = [n] := by rw [hx]
  have hne : (env x).shape ≠ [] := by
    rw [hshape]
    simp
  have hpos : ∀ d ∈ (env x).shape, 1 ≤ d := by
    rw [hshape]
    intro d hd
    simp only [List.mem_singleton] at hd
    omega
  obtain ⟨s, hs, hsshape, hsstrides, hstotal⟩ := tdSumNone_value (env x)
  have hfwd_sum : forwardB seqOps env (.sum (.leaf x) none) = .ok s := by
    show tViewTD (tdReduce (· + ·) 0 (env x)
      (List.range (env x).shape.length)) [1] = .ok s
    exact hs
  obtain ⟨e1, he1, he1shape, he1get⟩ :=
    tExpandSeq_ofOne hne hpos (rfl : oneTD.shape = [1])
  have htb : tensorBackwardSeq env (.sum (.leaf x) none) none
      (fun _ => none) = .ok (setGrad (fun _ => none) x e1) := by
    show tensorBackwardB seqOps env (.sum (.leaf x) none) none
      (fun _ => none) = _
    unfold tensorBackwardB
    rw [hfwd_sum]
    show (if s.shape = [1] then
        backpropB seqOps env (.sum (.leaf x) none) oneTD (fun _ => none)
      else .error .assertionFail) = _
    rw [if_pos hsshape]
    show (tExpandB seqOps (env x).shape oneTD >>= fun ga =>
      backpropB seqOps env (.leaf x) ga (fun _ => none)) = _
    rw [he1]
    rfl
  refine ⟨_, e1, htb, setGrad_self _ _ _, he1shape.trans hshape, ?_⟩
  intro i hi
  have hvalid : idxValid (env x).shape [i] := by
    rw [hshape]
    exact idxValid_cons.mpr ⟨hi, idxValid_nil⟩
  rw [he1get [i] hvalid, tdGet_oneTD]

/-- Witness for C2 at n = 3, v = 4. -/
theorem C2_sum_backward_uniform_witness :
    1 ≤ 3 ∧ ∃ σ g,
      tensorBackwardSeq
          (fun _ => { storage := List.replicate 3 (4 : Scalar), shape := [3],
                      strides := [1] })
          (.sum (.leaf 0) none) none (fun _ => none) = .ok σ ∧
      σ 0 = some g ∧ g.shape = [3] ∧ ∀ i, i < 3 → tdGet g [i] = 1 :=
  ⟨by decide, C2_sum_backward_uniform _ 0 3 4 (by decide) rfl⟩

instance {ε α : Type} [DecidableEq ε] [DecidableEq α] :
    DecidableEq (Except ε α) := fun a b =>
  match a, b with
  | .ok x, .ok y =>
    match decEq x y with
    | isTrue h => isTrue (h ▸ rfl)
    | isFalse h => isFalse fun hc => h (Except.ok.inj hc)
  | .error e1, .error e2 =>
    match decEq e1 e2 with
    | isTrue h => isTrue (h ▸ rfl)
    | isFalse h => isFalse fun hc => h (Except.error.inj hc)
  | .ok _, .error _ => isFalse fun hc => Except.noConfusion hc
  | .error _, .ok _ => isFalse fun hc => Except.noConfusion hc

/-- The tensor([2.0, 3.0]) operand. -/
def mulOpA : TensorData := { storage := [2, 3], shape := [2], strides := [1] }

/-- The tensor([4.0, 5.0]) operand. -/
def mulOpB : TensorData := { storage := [4, 5], shape := [2], strides := [1] }

/-- Environment holding the two Mul operands at leaves 0 and 1. -/
def mulEnv : ℕ → TensorData := fun i => if i = 0 then mulOpA else mulOpB

/-- C3: tensor([2.0, 3.0]) * tensor([4.0, 5.0]) evaluates to [8.0, 15.0],
and .sum().backward() on the product leaves gradient [4.0, 5.0] on the first
operand and [2.0, 3.0] on the second: Mul's backward hands each operand
grad_output times the other saved operand. -/
theorem C3_mul_product_rule :
    (∃ p, forwardSeq mulEnv (.mul (.leaf 0) (.leaf 1)) = .ok p ∧
      p.shape = [2] ∧ tdGet p [0] = 8 ∧ tdGet p [1] = 15) ∧
    ∃ σ ga gb, tensorBackwardSeq mulEnv (.sum (.mul (.leaf 0) (.leaf 1)) none)
        none (fun _ => none) = .ok σ ∧
      σ 0 = some ga ∧ ga.shape = [2] ∧ tdGet ga [0] = 4 ∧ tdGet ga [1] = 5 ∧
      σ 1 = some gb ∧ gb.shape = [2] ∧ tdGet gb [0] = 2 ∧ tdGet gb [1] = 3 := by
  refine ⟨⟨_, rfl, rfl, ?_, ?_⟩, _, _, _, rfl, rfl, rfl, ?_, ?_, rfl, rfl,
    ?_, ?_⟩
  · show (2 : Scalar) * 4 = 8
    norm_num
  · show (3 : Scalar) * 5 = 15
    norm_num
  · show (1 : Scalar) * 4 = 4
    norm_num
  · show (1 : Scalar) * 5 = 5
    norm_num
  · show (1 : Scalar) * 2 = 2
    norm_num
  · show (1 : Scalar) * 3 = 3
    norm_num

/-- C4: make_tensor_functions builds every Function solely from the backend's
map/zip/reduce, so any backend whose primitives honor the TensorOps contract
produces numerically identical results to the sequential backend, for the
forward value, the backward pass and Tensor.backward alike. -/
theorem C4_backend_swap (be : Backend) (h : honorsContract be)
    (env : ℕ → TensorData) (e : TExpr) :
    forwardB be env e = forwardSeq env e ∧
    (∀ g σ, backpropB be env e g σ = backpropSeq env e g σ) ∧
    (∀ gOpt σ, tensorBackwardB be env e gOpt σ =
      tensorBackwardSeq env e gOpt σ) := by
  obtain ⟨m, mo, z, r, ri⟩ := be
  obtain ⟨h1, h2, h3, h4, h5⟩ := h
  dsimp only at h1 h2 h3 h4 h5
  subst h1
  subst h2
  subst h3
  subst h4
  subst h5
  exact ⟨rfl, fun g σ => rfl, fun gOpt σ => rfl⟩

/-- Witness for C4: the sequential backend itself honors the contract. -/
theorem C4_backend_swap_witness :
    honorsContract seqOps ∧
    (forwardB seqOps mulEnv (.add (.leaf 0) (.leaf 1)) =
      forwardSeq mulEnv (.add (.leaf 0) (.leaf 1)) ∧
    (∀ g σ, backpropB seqOps mulEnv (.add (.leaf 0) (.leaf 1)) g σ =
      backpropSeq mulEnv (.add (.leaf 0) (.leaf 1)) g σ) ∧
    (∀ gOpt σ, tensorBackwardB seqOps mulEnv (.add (.leaf 0) (.leaf 1)) gOpt σ =
      tensorBackwardSeq mulEnv (.add (.leaf 0) (.leaf 1)) gOpt σ)) :=
  ⟨⟨rfl, rfl, rfl, rfl, rfl⟩,
    C4_backend_swap seqOps ⟨rfl, rfl, rfl, rfl, rfl⟩ mulEnv
      (.add (.leaf 0) (.leaf 1))⟩

theorem flatMap_singleton_eq_map {α β : Type} (f : α → β) (l : List α) :
    l.flatMap (fun x => [f x]) = l.map f := by
  induction l with
  | nil => rfl
  | cons x xs ih => simp [List.flatMap_cons, ih]

theorem allIndices_single (m : ℕ) :
    allIndices [m] = (List.range m).map fun i => [i] :=
  flatMap_singleton_eq_map (fun i => [i]) (List.range m)

/-- Entry of a single-dimension add-reduction: the sum over the collapsed
coordinate. -/
theorem tdReduce_single_entry (a : TensorData) (d : ℕ) {oidx : List ℕ}
    (h : idxValid (a.shape.set d 1) oidx) :
    tdGet (tdReduce (· + ·) 0 a [d]) oidx =
      ((List.range (a.shape.getD d 1)).map
        fun j => tdGet a (oidx.set d j)).sum := by
  show tdGet (mkContig (reduceShape a.shape [d]) _) oidx = _
  rw [tdGet_mkContig _ (show idxValid (reduceShape a.shape [d]) oidx from h)]
  show (allIndices (subShapeOf a.shape [d])).foldl
    (fun acc sub => acc + tdGet a (mergeIdx oidx [d] sub)) 0 = _
  rw [show subShapeOf a.shape [d] = [a.shape.getD d 1] from rfl,
    allIndices_single, List.foldl_map]
  show (List.range (a.shape.getD d 1)).foldl
    (fun acc j => acc + tdGet a (oidx.set d j)) 0 = _
  rw [foldl_add_eq, zero_add]

/-- C8: Sum.forward with a dim reduces exactly that dimension, collapsing it
to size 1 by adding across it; Sum.forward with dim None reduces every
dimension and returns a shape-(1,) tensor holding the sum of all entries. -/
theorem C8_sum_forward_semantics (env : ℕ → TensorData) (x d : ℕ) :
    (∃ t, forwardSeq env (.sum (.leaf x) (some d)) = .ok t ∧
      t.shape = (env x).shape.set d 1 ∧
      ∀ oidx, idxValid ((env x).shape.set d 1) oidx →
        tdGet t oidx = ((List.range ((env x).shape.getD d 1)).map
          fun j => tdGet (env x) (oidx.set d j)).sum) ∧
    (∃ s, forwardSeq env (.sum (.leaf x) none) = .ok s ∧ s.shape = [1] ∧
      tdGet s [0] = totalSum (env x)) := by
  constructor
  · refine ⟨tdReduce (· + ·) 0 (env x) [d], rfl, rfl, ?_⟩
    intro oidx hv
    exact tdReduce_single_entry (env x) d hv
  · obtain ⟨s, hs, hshape, hstrides, htotal⟩ := tdSumNone_value (env x)
    refine ⟨s, ?_, hshape, htotal⟩
    show tViewTD (tdReduce (· + ·) 0 (env x)
      (List.range (env x).shape.length)) [1] = .ok s
    exact hs

/-- Witness for C8 at a concrete shape-(2,) tensor and dim 0. -/
theorem C8_sum_forward_semantics_witness :
    (∃ t, forwardSeq (fun _ => witT2) (.sum (.leaf 0) (some 0)) = .ok t ∧
      t.shape = witT2.shape.set 0 1 ∧
      ∀ oidx, idxValid (witT2.shape.set 0 1) oidx →
        tdGet t oidx = ((List.range (witT2.shape.getD 0 1)).map
          fun j => tdGet witT2 (oidx.set 0 j)).sum) ∧
    (∃ s, forwardSeq (fun _ => witT2) (.sum (.leaf 0) none) = .ok s ∧
      s.shape = [1] ∧ tdGet s [0] = totalSum witT2) :=
  C8_sum_forward_semantics (fun _ => witT2) 0 0

/-- C6: View.forward on a non-contiguous buffer fails with the contiguity
error; on a contiguous buffer whose storage size matches the requested
shape's size it succeeds, reinterpreting the same storage. -/
theorem C6_view_contiguity (a : TensorData) (shape : List ℕ) :
    (¬ isContiguous a → tViewTD a shape = .error .contiguityError) ∧
    (isContiguous a → a.storage.length = shape.prod →
      ∃ t, tViewTD a shape = .ok t ∧ t.shape = shape ∧
        t.storage = a.storage) := by
  constructor
  · intro h
    unfold tViewTD
    rw [if_neg h]
  · intro h1 h2
    unfold tViewTD
    rw [if_pos h1, if_pos h2]
    exact ⟨_, rfl, rfl, rfl⟩

/-- A concrete non-contiguous buffer (strides [9] instead of [1]). -/
def witBad : TensorData := { storage := [1, 2], shape := [2], strides := [9] }

/-- Witness for C6: the failure branch at a non-contiguous buffer and the
success branch at a contiguous one. -/
theorem C6_view_contiguity_witness :
    tViewTD witBad [2] = .error .contiguityError ∧
    ∃ t, tViewTD witT2 [1, 2] = .ok t ∧ t.shape = [1, 2] ∧
      t.storage = witT2.storage :=
  ⟨(C6_view_contiguity witBad [2]).1 (by decide),
   (C6_view_contiguity witT2 [1, 2]).2 (by decide) (by decide)⟩

/-- C10: Tensor.backward with no grad_output seeds the pass with
tensor([1.0]) when the root has shape (1,), and otherwise fails on the
assert "Must provide grad_output if non-scalar" (the raise happens before
any slot is touched; in this pure model failure returns no state). -/
theorem C10_backward_default_seed (env : ℕ → TensorData) (e : TExpr)
    (t : TensorData) (σ : GState) (h : forwardSeq env e = .ok t) :
    (t.shape = [1] → tensorBackwardSeq env e none σ =
      backpropSeq env e oneTD σ) ∧
    (t.shape ≠ [1] → tensorBackwardSeq env e none σ =
      .error .assertionFail) := by
  have h' : forwardB seqOps env e = .ok t := h
  constructor
  · intro h1
    show tensorBackwardB seqOps env e none σ = _
    unfold tensorBackwardB
    rw [h']
    show (if t.shape = [1] then backpropB seqOps env e oneTD σ
      else .error .assertionFail) = _
    rw [if_pos h1]
    rfl
  · intro h1
    show tensorBackwardB seqOps env e none σ = _
    unfold tensorBackwardB
    rw [h']
    show (if t.shape = [1] then backpropB seqOps env e oneTD σ
      else .error .assertionFail) = _
    rw [if_neg h1]

/-- A concrete shape-(1,) tensor. -/
def witT1 : TensorData := { storage := [3], shape := [1], strides := [1] }

/-- Witness for C10: the seed branch at a shape-(1,) root and the assert
branch at a shape-(2,) root. -/
theorem C10_backward_default_seed_witness :
    tensorBackwardSeq (fun _ => witT1) (.leaf 0) none (fun _ => none) =
      backpropSeq (fun _ => witT1) (.leaf 0) oneTD (fun _ => none) ∧
    tensorBackwardSeq (fun _ => witT2) (.leaf 0) none (fun _ => none) =
      .error .assertionFail :=
  ⟨(C10_backward_default_seed (fun _ => witT1) (.leaf 0) witT1
      (fun _ => none) rfl).1 rfl,
   (C10_backward_default_seed (fun _ => witT2) (.leaf 0) witT2
      (fun _ => none) rfl).2 (by decide)⟩

theorem getD_of_lt {α : Type} {l : List α} {i : ℕ} (h : i < l.length)
    (d : α) : l.getD i d = l[i] := by
  rw [List.getD_eq_getElem?_getD, List.getElem?_eq_getElem h]
  rfl

theorem tensorData_eq {st : Storage} {sh sr : List ℕ} {a : TensorData}
    (h1 : st = a.storage) (h2 : sh = a.shape) (h3 : sr = a.strides) :
    ({ storage := st, shape := sh, strides := sr } : TensorData) = a := by
  subst h1
  subst h2
  subst h3
  rfl

instance instIsAntisymmNatLt : IsAntisymm ℕ (· < ·) :=
  ⟨fun a _ h1 h2 => absurd (Nat.lt_trans h1 h2) (Nat.lt_irrefl a)⟩

theorem argsortIdx_perm (order : List ℕ) :
    (argsortIdx order).Perm (List.range order.length) := by
  unfold argsortIdx
  have h1 : ((order.enum).mergeSort fun a b => Nat.ble a.2 b.2).Perm
      order.enum := List.mergeSort_perm _ _
  have h2 := h1.map Prod.fst
  rw [List.enum_map_fst] at h2
  exact h2

/-- The argsort computed by Permute.backward is a right inverse of the saved
order: composing order with it at any position k below the rank returns k. -/
theorem argsortIdx_inverse {order : List ℕ}
    (h : order.Perm (List.range order.length)) {k : ℕ}
    (hk : k < order.length) :
    order.getD ((argsortIdx order).getD k 0) 0 = k := by
  set S := (order.enum).mergeSort (fun a b => Nat.ble a.2 b.2) with hS
  have hperm : S.Perm order.enum := by
    rw [hS]
    exact List.mergeSort_perm _ _
  have hSlen : S.length = order.length := by
    rw [hperm.length_eq, List.enum_length]
  have hsorted : S.Pairwise fun a b => Nat.ble a.2 b.2 := by
    rw [hS]
    exact List.sorted_mergeSort
      (fun a b c hab hbc => by
        simp only [Nat.ble_eq] at hab hbc ⊢
        omega)
      (fun a b => by
        simp only [Bool.or_eq_true, Nat.ble_eq]
        omega)
      order.enum
  have hpmap : (S.map Prod.snd).Perm (List.range order.length) := by
    have h2 := hperm.map Prod.snd
    rw [List.enum_map_snd] at h2
    exact h2.trans h
  have hnodup : (S.map Prod.snd).Nodup :=
    (List.nodup_range order.length).perm hpmap.symm
  have hltS : (S.map Prod.snd).Pairwise (· < ·) := by
    rw [List.pairwise_map]
    rw [List.Nodup, List.pairwise_map] at hnodup
    refine (hsorted.and hnodup).imp ?_
    rintro ⟨a1, a2⟩ ⟨b1, b2⟩ ⟨h1, h2⟩
    simp only [Nat.ble_eq] at h1
    simp only at h2
    omega
  have heq : S.map Prod.snd = List.range order.length :=
    List.eq_of_perm_of_sorted hpmap hltS (List.pairwise_lt_range _)
  have hklt : k < S.length := by
    rw [hSlen]
    exact hk
  have hkmap : k < (S.map Prod.snd).length := by
    rw [List.length_map]
    exact hklt
  have hkrange : k < (List.range order.length).length := by
    rw [List.length_range]
    exact hk
  have hsnd : (S[k]).2 = k := by
    have h3 := List.getElem_of_eq heq hkmap
    rw [List.getElem_map] at h3
    rw [h3, List.getElem_range]
  have hmem : S[k] ∈ order.enum := hperm.subset (List.getElem_mem _)
  have hord : order[(S[k]).1]? = some k := by
    have h4 : ((S[k]).1, (S[k]).2) ∈ order.enum := by
      rw [Prod.mk.eta]
      exact hmem
    have h5 := List.mk_mem_enum_iff_getElem?.mp h4
    rw [hsnd] at h5
    exact h5
  have hargs : (argsortIdx order).getD k 0 = (S[k]).1 := by
    unfold argsortIdx
    rw [← hS, List.getD_eq_getElem?_getD, List.getElem?_map,
      List.getElem?_eq_getElem hklt]
    rfl
  rw [hargs, List.getD_eq_getElem?_getD, hord]
  rfl

/-- Permuting twice, first by order and then by its argsort, restores any
base list read through the two getD layers. -/
theorem permute_double_getD {base order : List ℕ}
    (h : order.Perm (List.range order.length))
    (hbase : base.length = order.length) :
    (argsortIdx order).map
      (fun d => (order.map fun d2 => base.getD d2 0).getD d 0) = base := by
  have hargl : (argsortIdx order).length = order.length := by
    rw [(argsortIdx_perm order).length_eq, List.length_range]
  apply List.ext_getElem?
  intro k
  by_cases hk : k < order.length
  · have hka : k < (argsortIdx order).length := by
      rw [hargl]
      exact hk
    have hkb : k < base.length := by
      rw [hbase]
      exact hk
    rw [List.getElem?_map, List.getElem?_eq_getElem hka,
      List.getElem?_eq_getElem hkb, Option.map_some']
    congr 1
    have hidx : (argsortIdx order)[k] = (argsortIdx order).getD k 0 :=
      (getD_of_lt hka 0).symm
    rw [hidx]
    have hdlt : (argsortIdx order).getD k 0 < order.length := by
      have hmem : (argsortIdx order).getD k 0 ∈ argsortIdx order := by
        rw [getD_of_lt hka 0]
        exact List.getElem_mem _
      exact List.mem_range.mp ((argsortIdx_perm order).subset hmem)
    have hdmap : (argsortIdx order).getD k 0 <
        (order.map fun d2 => base.getD d2 0).length := by
      rw [List.length_map]
      exact hdlt
    rw [getD_of_lt hdmap 0, List.getElem_map]
    have hinv := argsortIdx_inverse h hk
    rw [getD_of_lt hdlt 0] at hinv
    rw [hinv, getD_of_lt hkb 0]
  · have h1 : (argsortIdx order)[k]? = none := by
      apply List.getElem?_eq_none
      rw [hargl]
      omega
    have h2 : base[k]? = none := by
      apply List.getElem?_eq_none
      rw [hbase]
      omega
    rw [List.getElem?_map, h1, h2, Option.map_none']

/-- C5: permuting by a valid order and then by the inverse computed in
Permute.backward (argsort of the saved order) reproduces the original
buffer: same shape and the same element at every multi-index (in fact the
identical TensorData, since permute only reorders shape and strides over
shared storage). -/
theorem C5_permute_roundtrip (a : TensorData) (order : List ℕ)
    (hstr : a.strides.length = a.shape.length)
    (hperm : order.Perm (List.range a.shape.length)) :
    ∃ t1 t2, tdPermuteE a order = .ok t1 ∧
      tdPermuteE t1 (argsortIdx order) = .ok t2 ∧
      t2.shape = a.shape ∧
      (∀ idx, idxValid a.shape idx → tdGet t2 idx = tdGet a idx) ∧
      t2 = a := by
  have horder : order.length = a.shape.length := by
    rw [hperm.length_eq, List.length_range]
  have hperm' : order.Perm (List.range order.length) := by
    rw [horder]
    exact hperm
  have h1 : tdPermuteE a order = .ok
      { storage := a.storage
        shape := order.map fun d => a.shape.getD d 0
        strides := order.map fun d => a.strides.getD d 0 } := by
    unfold tdPermuteE
    rw [if_pos hperm]
  have hperm2 : (argsortIdx order).Perm
      (List.range (order.map fun d => a.shape.getD d 0).length) := by
    rw [List.length_map]
    exact argsortIdx_perm order
  have h2 : tdPermuteE
      { storage := a.storage
        shape := order.map fun d => a.shape.getD d 0
        strides := order.map fun d => a.strides.getD d 0 }
      (argsortIdx order) = .ok
      { storage := a.storage
        shape := (argsortIdx order).map
          fun d => (order.map fun d2 => a.shape.getD d2 0).getD d 0
        strides := (argsortIdx order).map
          fun d => (order.map fun d2 => a.strides.getD d2 0).getD d 0 } := by
    unfold tdPermuteE
    rw [if_pos hperm2]
  have hsh : (argsortIdx order).map
      (fun d => (order.map fun d2 => a.shape.getD d2 0).getD d 0) = a.shape :=
    permute_double_getD hperm' horder.symm
  have hst : (argsortIdx order).map
      (fun d => (order.map fun d2 => a.strides.getD d2 0).getD d 0) =
      a.strides :=
    permute_double_getD hperm' (by rw [hstr, horder])
  have ht2 : ({ storage := a.storage,
                shape := (argsortIdx order).map
                  fun d => (order.map fun d2 => a.shape.getD d2 0).getD d 0,
                strides := (argsortIdx order).map
                  fun d => (order.map fun d2 => a.strides.getD d2 0).getD d 0 } :
      TensorData) = a :=
    tensorData_eq rfl hsh hst
  refine ⟨_, _, h1, h2, ?_, ?_, ht2⟩
  · rw [ht2]
  · intro idx _
    rw [ht2]

/-- Concrete contiguous 2-by-3 tensor used by the C5 witness. -/
def witT23 : TensorData :=
  { storage := [1, 2, 3, 4, 5, 6], shape := [2, 3], strides := [3, 1] }

/-- Witness for C5 at the 2-by-3 tensor and order (1, 0). -/
theorem C5_permute_roundtrip_witness :
    witT23.strides.length = witT23.shape.length ∧
    ([1, 0] : List ℕ).Perm (List.range witT23.shape.length) ∧
    ∃ t1 t2, tdPermuteE witT23 [1, 0] = .ok t1 ∧
      tdPermuteE t1 (argsortIdx [1, 0]) = .ok t2 ∧
      t2.shape = witT23.shape ∧
      (∀ idx, idxValid witT23.shape idx → tdGet t2 idx = tdGet witT23 idx) ∧
      t2 = witT23 :=
  ⟨rfl, List.Perm.swap 0 1 [],
    C5_permute_roundtrip witT23 [1, 0] rfl (List.Perm.swap 0 1 [])⟩

theorem getD_set_self {α : Type} {l : List α} {i : ℕ} (h : i < l.length)
    (a d : α) : (l.set i a).getD i d = a := by
  rw [List.getD_eq_getElem?_getD, List.getElem?_set]
  simp [h]

/-- Heap of storages: several tensors may reference the same storage cell,
which is how Python's shared-by-reference _storage lists behave.  Modelled
from the spec (section 3: two or more StridedBuffers may alias the same
storage; mutation through one is visible through the other). -/
abbrev Heap := List Storage

/-- Tensor descriptor over heap-resident storage: storage id, shape and
strides. -/
structure HTensor where
  sid : ℕ
  shape : List ℕ
  strides : List ℕ

/-- Tensor.__getitem__ against the heap. -/
def hRead (h : Heap) (t : HTensor) (idx : List ℕ) : Scalar :=
  (h.getD t.sid []).getD (indexToPosition idx t.strides) 0

/-- Tensor.__setitem__ against the heap: mutates the shared storage cell in
place. -/
def hWrite (h : Heap) (t : HTensor) (idx : List ℕ) (v : Scalar) : Heap :=
  h.set t.sid ((h.getD t.sid []).set (indexToPosition idx t.strides) v)

/-- View.forward against the heap: same storage id (no copy), new shape with
canonical strides, after the contiguity assert and the size check of
Tensor.make. -/
def hView (h : Heap) (t : HTensor) (shape : List ℕ) : Except TErr HTensor :=
  if t.strides = stridesFor t.shape then
    if (h.getD t.sid []).length = shape.prod then
      .ok { sid := t.sid, shape := shape, strides := stridesFor shape }
    else .error .shapeMismatch
  else .error .contiguityError

/-- C9: a view returned by View.forward aliases the same storage as its
input: writing through the view is read back through the original at the
corresponding multi-index (the one sharing the same flat storage offset),
and vice versa. -/
theorem C9_view_aliasing (h : Heap) (t : HTensor) (vshape : List ℕ)
    (hsid : t.sid < h.length)
    (hcontig : t.strides = stridesFor t.shape)
    (hlen : (h.getD t.sid []).length = vshape.prod)
    (hlen2 : (h.getD t.sid []).length = t.shape.prod) :
    ∃ v, hView h t vshape = .ok v ∧ v.sid = t.sid ∧
      (∀ vidx val, idxValid vshape vidx →
        hRead (hWrite h v vidx val) t
          (positionToIndex (indexToPosition vidx (stridesFor vshape))
            t.shape) = val) ∧
      (∀ tidx val, idxValid t.shape tidx →
        hRead (hWrite h t tidx val) v
          (positionToIndex (indexToPosition tidx (stridesFor t.shape))
            vshape) = val) := by
  refine ⟨{ sid := t.sid, shape := vshape, strides := stridesFor vshape },
    ?_, rfl, ?_, ?_⟩
  · unfold hView
    rw [if_pos hcontig, if_pos hlen]
  · intro vidx val hvalid
    have hp : indexToPosition vidx (stridesFor vshape) < vshape.prod :=
      indexToPosition_lt hvalid
    show List.getD
      ((h.set t.sid ((h.getD t.sid []).set
        (indexToPosition vidx (stridesFor vshape)) val)).getD t.sid [])
      (indexToPosition
        (positionToIndex (indexToPosition vidx (stridesFor vshape)) t.shape)
        t.strides) 0 = val
    rw [getD_set_self hsid, hcontig, indexToPosition_positionToIndex
      (show indexToPosition vidx (stridesFor vshape) < t.shape.prod by omega)]
    exact getD_set_self (by omega) val 0
  · intro tidx val hvalid
    have hq : indexToPosition tidx (stridesFor t.shape) < t.shape.prod :=
      indexToPosition_lt hvalid
    show List.getD
      ((h.set t.sid ((h.getD t.sid []).set
        (indexToPosition tidx t.strides) val)).getD t.sid [])
      (indexToPosition
        (positionToIndex (indexToPosition tidx (stridesFor t.shape)) vshape)
        (stridesFor vshape)) 0 = val
    rw [hcontig, getD_set_self hsid, indexToPosition_positionToIndex
      (show indexToPosition tidx (stridesFor t.shape) < vshape.prod by omega)]
    exact getD_set_self (by omega) val 0

/-- Concrete heap with one six-element storage. -/
def witHeap : Heap := [[1, 2, 3, 4, 5, 6]]

/-- Concrete contiguous 2-by-3 descriptor over that storage. -/
def witHT : HTensor := { sid := 0, shape := [2, 3], strides := [3, 1] }

/-- Witness for C9: viewing the 2-by-3 buffer as shape (6,). -/
theorem C9_view_aliasing_witness :
    (witHT.sid < witHeap.length ∧
      witHT.strides = stridesFor witHT.shape ∧
      (witHeap.getD witHT.sid []).length = ([6] : List ℕ).prod ∧
      (witHeap.getD witHT.sid []).length = witHT.shape.prod) ∧
    ∃ v, hView witHeap witHT [6] = .ok v ∧ v.sid = witHT.sid ∧
      (∀ vidx val, idxValid [6] vidx →
        hRead (hWrite witHeap v vidx val) witHT
          (positionToIndex (indexToPosition vidx (stridesFor [6]))
            witHT.shape) = val) ∧
      (∀ tidx val, idxValid witHT.shape tidx →
        hRead (hWrite witHeap witHT tidx val) v
          (positionToIndex (indexToPosition tidx (stridesFor witHT.shape))
            [6]) = val) :=
  ⟨⟨by decide, by decide, by decide, by decide⟩,
    C9_view_aliasing witHeap witHT [6] (by decide) (by decide) (by decide)
      (by decide)⟩

/-- TensorData.set via Tensor.__setitem__: overwrite the storage cell
addressed by the multi-index. -/
def tdSet (t : TensorData) (idx : List ℕ) (v : Scalar) : TensorData :=
  { t with storage := t.storage.set (indexToPosition idx t.strides) v }

/-- Default tensor for out-of-range list access (Python would raise; the
claims below always index in range). -/
def dfltTD : TensorData := { storage := [], shape := [], strides := [] }

/-- central_difference from tensor.py: build up = zeros(x.shape) with
epsilon written at ind, evaluate f at vals with the arg-th entry replaced by
x + up and by x - up, total each result through .sum(), and divide the
difference of the two scalars by 2 epsilon. -/
def centralDifference (f : List TensorData → Except TErr TensorData)
    (vals : List TensorData) (arg : ℕ) (eps : Scalar) (ind : List ℕ) :
    Except TErr Scalar := do
  let x := vals.getD arg dfltTD
  let up := tdSet (zerosTD x.shape) ind eps
  let xp ← tdZip (· + ·) x up
  let xm ← tdZip (· + ·) x (tdMapSeq (fun s => -s) up)
  let f1 ← f (vals.set arg xp)
  let s1 ← tViewTD (tdReduce (· + ·) 0 f1 (List.range f1.shape.length)) [1]
  let f2 ← f (vals.set arg xm)
  let s2 ← tViewTD (tdReduce (· + ·) 0 f2 (List.range f2.shape.length)) [1]
  let delta ← tdZip (· + ·) s1 (tdMapSeq (fun s => -s) s2)
  return tdGet delta [0] / (2 * eps)

/-- A single-element perturbation written the way the claim describes it:
entry at ind moved by e, every other entry unchanged. -/
def specPerturb (x : TensorData) (ind : List ℕ) (e : Scalar) : TensorData :=
  mkContig x.shape fun idx => tdGet x idx + if idx = ind then e else 0

/-- Reading the zeros-plus-epsilon helper tensor: epsilon exactly at ind,
zero elsewhere. -/
theorem tdGet_up {S ind idx : List ℕ} (hind : idxValid S ind)
    (hidx : idxValid S idx) (e : Scalar) :
    tdGet (tdSet (zerosTD S) ind e) idx = if idx = ind then e else 0 := by
  show (List.getD ((List.replicate S.prod (0 : Scalar)).set
    (indexToPosition ind (stridesFor S)) e)
    (indexToPosition idx (stridesFor S)) 0) = _
  by_cases hcase : idx = ind
  · subst hcase
    rw [if_pos rfl]
    exact getD_set_self
      (by rw [List.length_replicate]; exact indexToPosition_lt hidx) e 0
  · rw [if_neg hcase]
    have hpq : indexToPosition idx (stridesFor S) ≠
        indexToPosition ind (stridesFor S) := by
      intro hEq
      apply hcase
      have h2 := congrArg (fun p => positionToIndex p S) hEq
      simp only at h2
      rwa [positionToIndex_indexToPosition hidx,
        positionToIndex_indexToPosition hind] at h2
    rw [List.getD_eq_getElem?_getD, List.getElem?_set,
      if_neg (fun hh => hpq hh.symm)]
    by_cases hp : indexToPosition idx (stridesFor S) < S.prod
    · rw [List.getElem?_replicate, if_pos hp]
      rfl
    · rw [List.getElem?_eq_none (by rw [List.length_replicate]; omega)]
      rfl

/-- Adding the epsilon helper tensor is exactly the claim's single-element
perturbation by +e. -/
theorem zip_up_plus {x : TensorData} {ind : List ℕ}
    (hind : idxValid x.shape ind) (e : Scalar) :
    tdZip (· + ·) x (tdSet (zerosTD x.shape) ind e) =
      .ok (specPerturb x ind e) := by
  rw [@tdZip_same_shape (· + ·) x (tdSet (zerosTD x.shape) ind e) rfl]
  congr 1
  apply mkContig_congr
  intro idx hidx
  rw [show (tdSet (zerosTD x.shape) ind e).shape = x.shape from rfl,
    broadcastIndex_self hidx, tdGet_up hind hidx e]

/-- Subtracting the epsilon helper tensor (x + (-up), as __sub__ computes)
is exactly the claim's single-element perturbation by -e. -/
theorem zip_up_minus {x : TensorData} {ind : List ℕ}
    (hind : idxValid x.shape ind) (e : Scalar) :
    tdZip (· + ·) x
        (tdMapSeq (fun s => -s) (tdSet (zerosTD x.shape) ind e)) =
      .ok (specPerturb x ind (-e)) := by
  rw [@tdZip_same_shape (· + ·) x
    (tdMapSeq (fun s => -s) (tdSet (zerosTD x.shape) ind e)) rfl]
  congr 1
  apply mkContig_congr
  intro idx hidx
  rw [show (tdMapSeq (fun s => -s) (tdSet (zerosTD x.shape) ind e)).shape =
    x.shape from rfl, broadcastIndex_self hidx]
  have hm : tdGet (tdMapSeq (fun s => -s) (tdSet (zerosTD x.shape) ind e))
      idx = -(if idx = ind then e else 0) := by
    show tdGet (mkContig x.shape fun i =>
      -(tdGet (tdSet (zerosTD x.shape) ind e)
        (broadcastIndex i (tdSet (zerosTD x.shape) ind e).shape))) idx = _
    rw [tdGet_mkContig _ hidx,
      show (tdSet (zerosTD x.shape) ind e).shape = x.shape from rfl,
      broadcastIndex_self hidx, tdGet_up hind hidx e]
  rw [hm]
  by_cases hcase : idx = ind
  · rw [if_pos hcase, if_pos hcase]
  · rw [if_neg hcase, if_neg hcase, neg_zero]

/-- C7: central_difference with the default epsilon 1e-6 returns exactly
(f(x+e).sum() - f(x-e).sum()) / (2 * epsilon), where x+e and x-e perturb
only the single element at ind of the arg-th input (every other input and
element unchanged) and .sum() is the total over all entries. -/
theorem C7_central_difference (f : List TensorData → Except TErr TensorData)
    (vals : List TensorData) (arg : ℕ) (ind : List ℕ)
    (harg : arg < vals.length)
    (hind : idxValid (vals.getD arg dfltTD).shape ind) :
    centralDifference f vals arg (1 / 1000000) ind =
      (do
        let a ← f (vals.set arg
          (specPerturb (vals.getD arg dfltTD) ind (1 / 1000000)))
        let b ← f (vals.set arg
          (specPerturb (vals.getD arg dfltTD) ind (-(1 / 1000000))))
        return (totalSum a - totalSum b) / (2 * (1 / 1000000))) := by
  show (tdZip (· + ·) (vals.getD arg dfltTD)
      (tdSet (zerosTD (vals.getD arg dfltTD).shape) ind (1 / 1000000)) >>=
    fun xp =>
      tdZip (· + ·) (vals.getD arg dfltTD)
        (tdMapSeq (fun s => -s)
          (tdSet (zerosTD (vals.getD arg dfltTD).shape) ind
            (1 / 1000000))) >>=
      fun xm =>
        f (vals.set arg xp) >>= fun f1 =>
        tViewTD (tdReduce (· + ·) 0 f1 (List.range f1.shape.length)) [1] >>=
        fun s1 =>
          f (vals.set arg xm) >>= fun f2 =>
          tViewTD (tdReduce (· + ·) 0 f2
            (List.range f2.shape.length)) [1] >>=
          fun s2 =>
            tdZip (· + ·) s1 (tdMapSeq (fun s => -s) s2) >>= fun delta =>
            pure (tdGet delta [0] / (2 * (1 / 1000000)))) = _
  rw [zip_up_plus hind (1 / 1000000), zip_up_minus hind (1 / 1000000)]
  show (f (vals.set arg (specPerturb (vals.getD arg dfltTD) ind
      (1 / 1000000))) >>= fun f1 =>
    tViewTD (tdReduce (· + ·) 0 f1 (List.range f1.shape.length)) [1] >>=
    fun s1 =>
      f (vals.set arg (specPerturb (vals.getD arg dfltTD) ind
        (-(1 / 1000000)))) >>= fun f2 =>
      tViewTD (tdReduce (· + ·) 0 f2 (List.range f2.shape.length)) [1] >>=
      fun s2 =>
        tdZip (· + ·) s1 (tdMapSeq (fun s => -s) s2) >>= fun delta =>
        pure (tdGet delta [0] / (2 * (1 / 1000000)))) = _
  rcases hfa : f (vals.set arg (specPerturb (vals.getD arg dfltTD) ind
      (1 / 1000000))) with ea | a
  · rfl
  · obtain ⟨s1, hs1, hs1shape, hs1strides, hs1tot⟩ := tdSumNone_value a
    show (tViewTD (tdReduce (· + ·) 0 a (List.range a.shape.length)) [1] >>=
      fun s1 =>
        f (vals.set arg (specPerturb (vals.getD arg dfltTD) ind
          (-(1 / 1000000)))) >>= fun f2 =>
        tViewTD (tdReduce (· + ·) 0 f2 (List.range f2.shape.length)) [1] >>=
        fun s2 =>
          tdZip (· + ·) s1 (tdMapSeq (fun s => -s) s2) >>= fun delta =>
          pure (tdGet delta [0] / (2 * (1 / 1000000)))) =
      (f (vals.set arg (specPerturb (vals.getD arg dfltTD) ind
        (-(1 / 1000000)))) >>= fun b =>
        pure ((totalSum a - totalSum b) / (2 * (1 / 1000000))))
    rw [hs1]
    rcases hfb : f (vals.set arg (specPerturb (vals.getD arg dfltTD) ind
        (-(1 / 1000000)))) with eb | b
    · rfl
    · obtain ⟨s2, hs2, hs2shape, hs2strides, hs2tot⟩ := tdSumNone_value b
      show (tViewTD (tdReduce (· + ·) 0 b (List.range b.shape.length))
          [1] >>= fun s2 =>
        tdZip (· + ·) s1 (tdMapSeq (fun s => -s) s2) >>= fun delta =>
        pure (tdGet delta [0] / (2 * (1 / 1000000)))) =
        pure ((totalSum a - totalSum b) / (2 * (1 / 1000000)))
      rw [hs2]
      show (tdZip (· + ·) s1 (tdMapSeq (fun s => -s) s2) >>= fun delta =>
        pure (tdGet delta [0] / (2 * (1 / 1000000)))) = _
      have hds : s1.shape = (tdMapSeq (fun s => -s) s2).shape := by
        rw [hs1shape,
          show (tdMapSeq (fun s => -s) s2).shape = s2.shape from rfl,
          hs2shape]
      rw [@tdZip_same_shape (· + ·) s1 (tdMapSeq (fun s => -s) s2) hds]
      have hv1 : idxValid s1.shape [0] := by
        rw [hs1shape]
        exact idxValid_cons.mpr ⟨Nat.zero_lt_one, idxValid_nil⟩
      have hv2 : idxValid s2.shape [0] := by
        rw [hs2shape]
        exact idxValid_cons.mpr ⟨Nat.zero_lt_one, idxValid_nil⟩
      have hm2 : tdGet (tdMapSeq (fun s => -s) s2) [0] = -(tdGet s2 [0]) := by
        show tdGet (mkContig s2.shape fun i =>
          -(tdGet s2 (broadcastIndex i s2.shape))) [0] = _
        rw [tdGet_mkContig _ hv2, broadcastIndex_self hv2]
      have hdelta : tdGet (mkContig s1.shape fun idx =>
          tdGet s1 (broadcastIndex idx s1.shape) +
            tdGet (tdMapSeq (fun s => -s) s2)
              (broadcastIndex idx (tdMapSeq (fun s => -s) s2).shape)) [0] =
          totalSum a + -(totalSum b) := by
        rw [tdGet_mkContig _ hv1]
        show tdGet s1 (broadcastIndex [0] s1.shape) +
          tdGet (tdMapSeq (fun s => -s) s2)
            (broadcastIndex [0] (tdMapSeq (fun s => -s) s2).shape) = _
        rw [broadcastIndex_self hv1,
          show (tdMapSeq (fun s => -s) s2).shape = s2.shape from rfl,
          broadcastIndex_self hv2, hm2, hs1tot, hs2tot]
      show pure (tdGet (mkContig s1.shape fun idx =>
          tdGet s1 (broadcastIndex idx s1.shape) +
            tdGet (tdMapSeq (fun s => -s) s2)
              (broadcastIndex idx (tdMapSeq (fun s => -s) s2).shape)) [0] /
        (2 * (1 / 1000000))) =
        (pure ((totalSum a - totalSum b) / (2 * (1 / 1000000))) :
          Except TErr Scalar)
      rw [hdelta, ← sub_eq_add_neg]

/-- Witness for C7 with f returning its first argument, at vals = [witT2],
arg 0, ind (0,). -/
theorem C7_central_difference_witness :
    (0 < ([witT2] : List TensorData).length ∧
      idxValid (([witT2] : List TensorData).getD 0 dfltTD).shape [0]) ∧
    centralDifference (fun l => .ok (l.getD 0 dfltTD)) [witT2] 0
        (1 / 1000000) [0] =
      (do
        let a ← (fun l => (.ok (l.getD 0 dfltTD) :
          Except TErr TensorData)) ([witT2].set 0
            (specPerturb ([witT2].getD 0 dfltTD) [0] (1 / 1000000)))
        let b ← (fun l => (.ok (l.getD 0 dfltTD) :
          Except TErr TensorData)) ([witT2].set 0
            (specPerturb ([witT2].getD 0 dfltTD) [0] (-(1 / 1000000))))
        return (totalSum a - totalSum b) / (2 * (1 / 1000000))) :=
  ⟨⟨by decide, by decide⟩,
    C7_central_difference (fun l => .ok (l.getD 0 dfltTD)) [witT2] 0 [0]
      (by decide) (by decide)⟩
